import Mathlib

/-!
# Verification of the `mitt` event emitter (`src/index.ts`)

Shallow embedding of the mitt publish/subscribe emitter.

* Event-type keys are `String`; the reserved wildcard key is the string `"*"`,
  exactly as in the source.
* The registry `all : EventHandlerMap` (a JS `Map` from keys to arrays of
  handlers) is embedded as an association list `HMap` with unique keys;
  `mapGet`/`mapSet` follow JS `Map.get`/`Map.set` (set updates an existing
  binding in place, otherwise appends a new binding).
* Handlers are opaque callables identified by reference; we embed a handler
  reference as a `Nat` id.  What a handler *does* when invoked (calls to
  `on`/`off` on the same emitter, or throwing an exception) is supplied by an
  environment `env : Nat → HandlerBehavior`.  A handler with `throws = true`
  raises when invoked; otherwise it performs its `actions` in order.
* `emit` returns the final registry, the trace of handler invocations
  (`CallRec` records the handler id and the arguments it received), and a
  flag that is `true` exactly when a handler threw, i.e. when the exception
  propagates uncaught out of `emit` to its caller.
-/

set_option autoImplicit false

namespace Mitt

/-- A handler reference (JS functions are compared by reference identity). -/
abbrev HandlerId := Nat

/-- The registry: embedding of the JS `Map` from event-type keys to arrays of
handler references, as an association list with unique keys. -/
abbrev HMap := List (String × List HandlerId)

/-- `Map.get`: the value bound to `k`, scanning bindings in insertion order. -/
def mapGet : HMap → String → Option (List HandlerId)
  | [], _ => none
  | (k', v) :: rest, k => if k' = k then some v else mapGet rest k

/-- `Map.set`: replace the binding of `k` in place if present, else append a
new binding at the end. -/
def mapSet : HMap → String → List HandlerId → HMap
  | [], k, v => [(k, v)]
  | (k', v') :: rest, k, v =>
      if k' = k then (k, v) :: rest else (k', v') :: mapSet rest k v

/-- The handler sequence registered under `k` (empty when `k` is unbound;
in the source an absent key and a key bound to an empty array dispatch
identically). -/
def listOf (m : HMap) (k : String) : List HandlerId :=
  (mapGet m k).getD []

/-- `on(type, handler)` from the source: push onto the existing array, or
create a fresh one-element array when the key is unbound. -/
def «on» (m : HMap) (type : String) (handler : HandlerId) : HMap :=
  match mapGet m type with
  | some handlers => mapSet m type (handlers ++ [handler])
  | none => mapSet m type [handler]

/-- `Array.prototype.indexOf`: index of the first occurrence, or `-1`. -/
def jsIndexOf (l : List HandlerId) (h : HandlerId) : Int :=
  match l with
  | [] => -1
  | x :: rest => if x = h then 0 else
      match jsIndexOf rest h with
      | -1 => -1
      | i => i + 1

/-- The `>>> 0` coercion: interpret an integer as an unsigned 32-bit value
(so `-1` becomes `4294967295`). -/
def toUint32 (i : Int) : Nat :=
  (i % (2 ^ 32 : Int)).toNat

/-- `Array.prototype.splice(start, 1)`: remove the element at index `start`
(a no-op when `start ≥ length`). -/
def spliceRemoveOne (l : List HandlerId) (start : Nat) : List HandlerId :=
  l.take start ++ l.drop (start + 1)

/-- `off(type, handler?)` from the source: with a handler, splice out the
element at `indexOf(handler) >>> 0`; without one, set the key to a fresh
empty array; when the key is unbound, do nothing. -/
def off (m : HMap) (type : String) (handler : Option HandlerId) : HMap :=
  match mapGet m type with
  | some handlers =>
      match handler with
      | some h => mapSet m type (spliceRemoveOne handlers (toUint32 (jsIndexOf handlers h)))
      | none => mapSet m type []
  | none => m

/-- A registry mutation a handler may perform while it is being invoked:
a call to `on` or to `off` on the same emitter. -/
inductive Action where
  | onA (type : String) (h : HandlerId)
  | offA (type : String) (h : Option HandlerId)
deriving DecidableEq

/-- The key an action touches. -/
def Action.key : Action → String
  | .onA t _ => t
  | .offA t _ => t

/-- What a handler does when invoked: if `throws` it raises immediately;
otherwise it performs `actions` (calls to `on`/`off`) in order. -/
structure HandlerBehavior where
  actions : List Action
  throws : Bool
deriving DecidableEq

/-- An environment assigning each handler reference its behavior. -/
abbrev HandlerEnv := HandlerId → HandlerBehavior

/-- Apply one handler-performed `on`/`off` call to the registry. -/
def runAction (m : HMap) : Action → HMap
  | .onA t h => «on» m t h
  | .offA t h? => off m t h?

/-- Apply a handler's mutations in order. -/
def runActions (m : HMap) (as : List Action) : HMap :=
  as.foldl runAction m

/-- The registry after invoking one (non-throwing) handler. -/
def stepState (env : HandlerEnv) (m : HMap) (h : HandlerId) : HMap :=
  runActions m (env h).actions

/-- The registry after invoking a list of handlers in order. -/
def foldState (env : HandlerEnv) (m : HMap) (hs : List HandlerId) : HMap :=
  hs.foldl (stepState env) m

/-- A recorded handler invocation: a type-matched handler receives the
payload only, a wildcard handler receives the originating type and the
payload. -/
inductive CallRec where
  | concrete (h : HandlerId) (payload : Nat)
  | wildcard (h : HandlerId) (type : String) (payload : Nat)
deriving DecidableEq

/-- Invoke the handlers of one dispatch snapshot in order, threading the
registry through their mutations.  Returns the final registry, the trace of
invocations, and `true` iff some handler threw (aborting the rest). -/
def dispatchList (env : HandlerEnv) (mk : HandlerId → CallRec) :
    List HandlerId → HMap → HMap × List CallRec × Bool
  | [], m => (m, [], false)
  | h :: rest, m =>
      if (env h).throws then (m, [mk h], true)
      else
        let r := dispatchList env mk rest (stepState env m h)
        (r.1, mk h :: r.2.1, r.2.2)

/-- `emit(type, evt)` from the source: look up `type`, snapshot (`.slice()`)
and invoke each handler with the payload; then look up `'*'` *in the current
registry* and invoke each of those handlers with `(type, payload)`.  A throw
anywhere aborts the remaining invocations and propagates (flag `true`). -/
def emit (env : HandlerEnv) (m : HMap) (type : String) (evt : Nat) :
    HMap × List CallRec × Bool :=
  let hs := (mapGet m type).getD []
  let r1 := dispatchList env (fun h => .concrete h evt) hs m
  if r1.2.2 then r1
  else
    let ws := (mapGet r1.1 "*").getD []
    let r2 := dispatchList env (fun h => .wildcard h type evt) ws r1.1
    (r2.1, r1.2.1 ++ r2.2.1, r2.2.2)

/-- An operation of the emitter's public interface, for reasoning about
arbitrary call sequences. -/
inductive Op where
  | opOn (type : String) (h : HandlerId)
  | opOff (type : String) (h : Option HandlerId)
  | opEmit (type : String) (v : Nat)

/-- The registry after one public operation. -/
def applyOp (env : HandlerEnv) (m : HMap) : Op → HMap
  | .opOn t h => «on» m t h
  | .opOff t h? => off m t h?
  | .opEmit t v => (emit env m t v).1

/-- The registry after a sequence of public operations. -/
def runProg (env : HandlerEnv) (m : HMap) (ops : List Op) : HMap :=
  ops.foldl (applyOp env) m

/-- A handler behavior that neither throws nor mutates the registry. -/
def inertBehavior : HandlerBehavior := ⟨[], false⟩

/-- The environment in which every handler is inert. -/
def inertEnv : HandlerEnv := fun _ => inertBehavior

/-- `h1` occurs in `l` with some occurrence of `h2` strictly after it. -/
def Before (h1 h2 : HandlerId) (l : List HandlerId) : Prop :=
  ∃ u w, l = u ++ h1 :: w ∧ h2 ∈ w

/-- An environment in which handler 5 throws and every other handler is
inert. -/
def envThrow5 : HandlerEnv := fun h => ⟨[], h == 5⟩

/-- An environment in which handler 0 registers handler 1 under key `"a"`
when invoked, and every other handler is inert. -/
def envMutA : HandlerEnv := fun h => ⟨if h = 0 then [Action.onA "a" 1] else [], false⟩

/-- An environment in which handler 0 registers handler 1 under the wildcard
key when invoked, and every other handler is inert. -/
def envStarGrow : HandlerEnv := fun h => ⟨if h = 0 then [Action.onA "*" 1] else [], false⟩

/-- One registry step, viewed through the sequence for key `t`: either it
appends a handler other than `h1`/`h2`, or it leaves a sublist. -/
def GoodStep (t : String) (h1 h2 : HandlerId) (m m' : HMap) : Prop :=
  (∃ x, x ≠ h1 ∧ x ≠ h2 ∧ listOf m' t = listOf m t ++ [x]) ∨
    List.Sublist (listOf m' t) (listOf m t)

/-- Invariant before `h1` is registered: neither handler is in the sequence. -/
def NotIn2 (t : String) (h1 h2 : HandlerId) (m : HMap) : Prop :=
  h1 ∉ listOf m t ∧ h2 ∉ listOf m t

/-- Invariant after `on(t, h1)`: `h1` occurs at most once, `h2` not at all. -/
def Reg1 (t : String) (h1 h2 : HandlerId) (m : HMap) : Prop :=
  List.count h1 (listOf m t) ≤ 1 ∧ h2 ∉ listOf m t

/-- Invariant after `on(t, h2)`: both occur at most once, and while both are
present some occurrence of `h1` precedes some occurrence of `h2`. -/
def Reg2 (t : String) (h1 h2 : HandlerId) (m : HMap) : Prop :=
  List.count h1 (listOf m t) ≤ 1 ∧ List.count h2 (listOf m t) ≤ 1 ∧
    (h1 ∈ listOf m t → h2 ∈ listOf m t → Before h1 h2 (listOf m t))

/-- Lift a predicate on handler-performed actions to public operations
(an `emit` performs no registry mutation of its own). -/
def OpOK (AOK : Action → Prop) : Op → Prop
  | .opOn t h => AOK (.onA t h)
  | .opOff t h? => AOK (.offA t h?)
  | .opEmit _ _ => True

/-! ## Map lemmas -/

theorem mapGet_mapSet_self (m : HMap) (k : String) (v : List HandlerId) :
    mapGet (mapSet m k v) k = some v := by
  induction m with
  | nil => simp [mapGet, mapSet]
  | cons p rest ih =>
      obtain ⟨k', v'⟩ := p
      by_cases hk : k' = k
      · subst hk
        simp [mapGet, mapSet]
      · simp [mapGet, mapSet, hk, ih]

theorem mapGet_mapSet_ne (m : HMap) (k k' : String) (v : List HandlerId)
    (hk : k ≠ k') : mapGet (mapSet m k v) k' = mapGet m k' := by
  induction m with
  | nil => simp [mapGet, mapSet, hk]
  | cons p rest ih =>
      obtain ⟨k'', v''⟩ := p
      by_cases h2 : k'' = k
      · subst h2
        simp [mapGet, mapSet, hk]
      · simp [mapGet, mapSet, h2, ih]

theorem mapSet_get_self (m : HMap) (k : String) (v : List HandlerId)
    (hget : mapGet m k = some v) : mapSet m k v = m := by
  induction m with
  | nil => simp [mapGet] at hget
  | cons p rest ih =>
      obtain ⟨k', v'⟩ := p
      by_cases hk : k' = k
      · subst hk
        simp [mapGet] at hget
        simp [mapSet, hget]
      · simp [mapGet, hk] at hget
        simp [mapSet, hk, ih hget]

theorem mapGet_mapSet_isSome (m : HMap) (k k' : String) (v : List HandlerId)
    (hmem : (mapGet m k').isSome = true) :
    (mapGet (mapSet m k v) k').isSome = true := by
  by_cases hk : k = k'
  · subst hk
    simp [mapGet_mapSet_self]
  · rw [mapGet_mapSet_ne m k k' v hk]
    exact hmem

/-! ## Effect of `on` and `off` on the registry -/

theorem listOf_on_self (m : HMap) (t : String) (h : HandlerId) :
    listOf («on» m t h) t = listOf m t ++ [h] := by
  unfold «on» listOf
  cases hget : mapGet m t with
  | none => simp [hget, mapGet_mapSet_self]
  | some hs => simp [hget, mapGet_mapSet_self]

theorem mapGet_on_ne (m : HMap) (t k : String) (h : HandlerId) (hk : t ≠ k) :
    mapGet («on» m t h) k = mapGet m k := by
  unfold «on»
  cases hget : mapGet m t with
  | none => simp [mapGet_mapSet_ne m t k _ hk]
  | some hs => simp [mapGet_mapSet_ne m t k _ hk]

theorem mapGet_off_ne (m : HMap) (t k : String) (h? : Option HandlerId)
    (hk : t ≠ k) : mapGet (off m t h?) k = mapGet m k := by
  unfold off
  cases hget : mapGet m t with
  | none => rfl
  | some hs =>
      cases h? with
      | none => simp [mapGet_mapSet_ne m t k _ hk]
      | some h => simp [mapGet_mapSet_ne m t k _ hk]

theorem spliceRemoveOne_sublist (l : List HandlerId) (s : Nat) :
    List.Sublist (spliceRemoveOne l s) l := by
  unfold spliceRemoveOne
  conv_rhs => rw [← List.take_append_drop s l]
  apply List.Sublist.append_left
  rw [← List.drop_drop]
  exact List.drop_sublist 1 (List.drop s l)

theorem listOf_off_sublist (m : HMap) (t : String) (h? : Option HandlerId) :
    List.Sublist (listOf (off m t h?) t) (listOf m t) := by
  unfold off listOf
  cases hget : mapGet m t with
  | none => simp [hget]
  | some hs =>
      cases h? with
      | none => simp [hget, mapGet_mapSet_self]
      | some h =>
          simp only [hget, mapGet_mapSet_self, Option.getD_some]
          exact spliceRemoveOne_sublist hs _

theorem mapGet_on_isSome (m : HMap) (t k : String) (h : HandlerId)
    (hmem : (mapGet m k).isSome = true) :
    (mapGet («on» m t h) k).isSome = true := by
  unfold «on»
  cases hget : mapGet m t with
  | none => exact mapGet_mapSet_isSome m t k _ hmem
  | some hs => exact mapGet_mapSet_isSome m t k _ hmem

theorem mapGet_off_isSome (m : HMap) (t k : String) (h? : Option HandlerId)
    (hmem : (mapGet m k).isSome = true) :
    (mapGet (off m t h?) k).isSome = true := by
  unfold off
  cases hget : mapGet m t with
  | none => exact hmem
  | some hs =>
      cases h? with
      | none => exact mapGet_mapSet_isSome m t k _ hmem
      | some h => exact mapGet_mapSet_isSome m t k _ hmem

theorem mapGet_runAction_isSome (m : HMap) (a : Action) (k : String)
    (hmem : (mapGet m k).isSome = true) :
    (mapGet (runAction m a) k).isSome = true := by
  cases a with
  | onA t h => exact mapGet_on_isSome m t k h hmem
  | offA t h? => exact mapGet_off_isSome m t k h? hmem

/-! ## Dispatch characterizations -/

theorem dispatchList_noThrow (env : HandlerEnv) (mk : HandlerId → CallRec)
    (hs : List HandlerId) (m : HMap)
    (hth : ∀ h ∈ hs, (env h).throws = false) :
    dispatchList env mk hs m = (foldState env m hs, hs.map mk, false) := by
  induction hs generalizing m with
  | nil => simp [dispatchList, foldState]
  | cons h rest ih =>
      have hh : (env h).throws = false := hth h (List.mem_cons_self h rest)
      have hrest : ∀ x ∈ rest, (env x).throws = false :=
        fun x hx => hth x (List.mem_cons_of_mem h hx)
      simp [dispatchList, hh, ih (stepState env m h) hrest, foldState, List.foldl_cons]

theorem dispatchList_state_pure (env : HandlerEnv) (mk : HandlerId → CallRec)
    (hs : List HandlerId) (m : HMap)
    (hpure : ∀ h, (env h).actions = []) :
    (dispatchList env mk hs m).1 = m := by
  induction hs generalizing m with
  | nil => simp [dispatchList]
  | cons h rest ih =>
      by_cases hh : (env h).throws = true
      · simp [dispatchList, hh]
      · simp only [Bool.not_eq_true] at hh
        have hstep : stepState env m h = m := by
          simp [stepState, hpure h, runActions]
        simp [dispatchList, hh, hstep, ih m]

theorem foldState_pure (env : HandlerEnv) (m : HMap) (hs : List HandlerId)
    (hpure : ∀ h, (env h).actions = []) :
    foldState env m hs = m := by
  induction hs generalizing m with
  | nil => rfl
  | cons h rest ih =>
      have hstep : stepState env m h = m := by
        simp [stepState, hpure h, runActions]
      simp [foldState, List.foldl_cons, hstep]
      simpa [foldState] using ih m

theorem dispatchList_firstThrow (env : HandlerEnv) (mk : HandlerId → CallRec)
    (hs : List HandlerId) (m : HMap) (i : Nat) (hi : i < hs.length)
    (hbefore : ∀ x ∈ hs.take i, (env x).throws = false)
    (hthrow : (env (hs.getD i 0)).throws = true) :
    dispatchList env mk hs m =
      (foldState env m (hs.take i), (hs.take (i + 1)).map mk, true) := by
  induction hs generalizing m i with
  | nil => simp at hi
  | cons h rest ih =>
      cases i with
      | zero =>
          simp only [List.getD, List.get?, Option.getD_some] at hthrow
          simp [dispatchList, hthrow, foldState]
      | succ i' =>
          have hh : (env h).throws = false :=
            hbefore h (by simp [List.take_succ_cons])
          have hb' : ∀ x ∈ rest.take i', (env x).throws = false := by
            intro x hx
            exact hbefore x (by simp [List.take_succ_cons, hx])
          have hi' : i' < rest.length := by simpa using hi
          have hth' : (env (rest.getD i' 0)).throws = true := by
            simpa [List.getD] using hthrow
          simp only [dispatchList, hh, Bool.false_eq_true, if_false]
          rw [ih (stepState env m h) i' hi' hb' hth']
          simp [List.take_succ_cons, foldState, List.foldl_cons]

/-- Full characterization of `emit` when no handler throws: the type-matched
snapshot is dispatched first, then the wildcard sequence *as it stands after
the type-matched handlers ran*. -/
theorem emit_noThrow (env : HandlerEnv) (m : HMap) (t : String) (v : Nat)
    (hth : ∀ h, (env h).throws = false) :
    emit env m t v =
      (foldState env (foldState env m (listOf m t)) (listOf (foldState env m (listOf m t)) "*"),
       (listOf m t).map (fun h => .concrete h v) ++
         (listOf (foldState env m (listOf m t)) "*").map (fun h => .wildcard h t v),
       false) := by
  simp only [emit]
  rw [dispatchList_noThrow env _ _ m (fun h _ => hth h)]
  simp only [Bool.false_eq_true, if_false]
  rw [dispatchList_noThrow env _ _ _ (fun h _ => hth h)]
  rfl

/-! ## Generic preservation of registry predicates across dispatch -/

theorem runActions_pres (P : HMap → Prop) (AOK : Action → Prop)
    (hpres : ∀ m a, AOK a → P m → P (runAction m a))
    (as : List Action) (hok : ∀ a ∈ as, AOK a) (m : HMap) (hm : P m) :
    P (runActions m as) := by
  induction as generalizing m with
  | nil => exact hm
  | cons a rest ih =>
      have ha : AOK a := hok a (List.mem_cons_self a rest)
      have hrest : ∀ x ∈ rest, AOK x := fun x hx => hok x (List.mem_cons_of_mem a hx)
      simpa [runActions, List.foldl_cons] using
        ih hrest (runAction m a) (hpres m a ha hm)

theorem dispatchList_state_pres (P : HMap → Prop) (AOK : Action → Prop)
    (hpres : ∀ m a, AOK a → P m → P (runAction m a))
    (env : HandlerEnv) (henv : ∀ h, ∀ a ∈ (env h).actions, AOK a)
    (mk : HandlerId → CallRec) (hs : List HandlerId) (m : HMap) (hm : P m) :
    P ((dispatchList env mk hs m).1) := by
  induction hs generalizing m with
  | nil => exact hm
  | cons h rest ih =>
      by_cases hh : (env h).throws = true
      · simpa [dispatchList, hh] using hm
      · simp only [Bool.not_eq_true] at hh
        have hstep : P (stepState env m h) :=
          runActions_pres P AOK hpres (env h).actions (henv h) m hm
        simpa [dispatchList, hh] using ih (stepState env m h) hstep

theorem foldState_pres (P : HMap → Prop) (AOK : Action → Prop)
    (hpres : ∀ m a, AOK a → P m → P (runAction m a))
    (env : HandlerEnv) (henv : ∀ h, ∀ a ∈ (env h).actions, AOK a)
    (hs : List HandlerId) (m : HMap) (hm : P m) :
    P (foldState env m hs) := by
  induction hs generalizing m with
  | nil => exact hm
  | cons h rest ih =>
      have hstep : P (stepState env m h) :=
        runActions_pres P AOK hpres (env h).actions (henv h) m hm
      simpa [foldState, List.foldl_cons] using ih (stepState env m h) hstep

theorem emit_state_pres (P : HMap → Prop) (AOK : Action → Prop)
    (hpres : ∀ m a, AOK a → P m → P (runAction m a))
    (env : HandlerEnv) (henv : ∀ h, ∀ a ∈ (env h).actions, AOK a)
    (m : HMap) (t : String) (v : Nat) (hm : P m) :
    P ((emit env m t v).1) := by
  simp only [emit]
  have h1 : P ((dispatchList env (fun h => CallRec.concrete h v)
      ((mapGet m t).getD []) m).1) :=
    dispatchList_state_pres P AOK hpres env henv _ _ m hm
  by_cases hb : (dispatchList env (fun h => CallRec.concrete h v)
      ((mapGet m t).getD []) m).2.2 = true
  · simpa [hb] using h1
  · simp only [hb, if_false]
    exact dispatchList_state_pres P AOK hpres env henv _ _ _ h1

theorem applyOp_pres (P : HMap → Prop) (AOK : Action → Prop)
    (hpres : ∀ m a, AOK a → P m → P (runAction m a))
    (env : HandlerEnv) (henv : ∀ h, ∀ a ∈ (env h).actions, AOK a)
    (m : HMap) (op : Op) (hok : OpOK AOK op) (hm : P m) :
    P (applyOp env m op) := by
  cases op with
  | opOn t h => exact hpres m (.onA t h) hok hm
  | opOff t h? => exact hpres m (.offA t h?) hok hm
  | opEmit t v => exact emit_state_pres P AOK hpres env henv m t v hm

theorem runProg_pres (P : HMap → Prop) (AOK : Action → Prop)
    (hpres : ∀ m a, AOK a → P m → P (runAction m a))
    (env : HandlerEnv) (henv : ∀ h, ∀ a ∈ (env h).actions, AOK a)
    (ops : List Op) (hops : ∀ op ∈ ops, OpOK AOK op) (m : HMap) (hm : P m) :
    P (runProg env m ops) := by
  induction ops generalizing m with
  | nil => exact hm
  | cons op rest ih =>
      have hop : OpOK AOK op := hops op (List.mem_cons_self op rest)
      have hrest : ∀ x ∈ rest, OpOK AOK x := fun x hx => hops x (List.mem_cons_of_mem op hx)
      simpa [runProg, List.foldl_cons] using
        ih hrest (applyOp env m op) (applyOp_pres P AOK hpres env henv m op hop hm)

/-- `emit` under handlers that neither throw nor mutate: the registry is
returned unchanged and the trace is the type-matched snapshot followed by
the wildcard snapshot. -/
theorem emit_trace_pure (env : HandlerEnv) (m : HMap) (t : String) (v : Nat)
    (hth : ∀ h, (env h).throws = false) (hpure : ∀ h, (env h).actions = []) :
    emit env m t v =
      (m, (listOf m t).map (fun h => .concrete h v) ++
        (listOf m "*").map (fun h => .wildcard h t v), false) := by
  rw [emit_noThrow env m t v hth]
  have hfs : ∀ (m' : HMap) (hs : List HandlerId), foldState env m' hs = m' :=
    fun m' hs => foldState_pure env m' hs hpure
  simp [hfs]

theorem count_concrete_map (l : List HandlerId) (h : HandlerId) (v : Nat) :
    List.count (CallRec.concrete h v) (l.map (fun x => CallRec.concrete x v)) =
      List.count h l := by
  induction l with
  | nil => rfl
  | cons x rest ih =>
      by_cases hx : x = h
      · subst hx
        simp [List.count_cons, ih]
      · simp [List.count_cons, ih, hx]

theorem count_concrete_wildcard_map (l : List HandlerId) (t : String)
    (v : Nat) (h : HandlerId) :
    List.count (CallRec.concrete h v) (l.map (fun x => CallRec.wildcard x t v)) = 0 := by
  rw [List.count_eq_zero]
  intro hmem
  obtain ⟨x, _, hx⟩ := List.mem_map.1 hmem
  exact CallRec.noConfusion hx

/-! ## Claim theorems -/

/-- **C9.** Key-set monotonicity: no operation of the interface — `on`,
`off` (with or without a handler), or `emit` (whatever the invoked handlers
do) — ever deletes a key from the registry map, so a key present before any
sequence of operations is still present afterwards. -/
theorem registry_keys_monotone (env : HandlerEnv) (ops : List Op) (m : HMap)
    (k : String) (hmem : (mapGet m k).isSome = true) :
    (mapGet (runProg env m ops) k).isSome = true :=
  runProg_pres (fun m' => (mapGet m' k).isSome = true) (fun _ => True)
    (fun m' a _ hm => mapGet_runAction_isSome m' a k hm) env
    (fun _ _ _ => trivial) ops
    (fun op _ => by cases op <;> trivial) m hmem

/-- Witness for C9 at a concrete program: the key `"a"` survives a clearing
`off`, a targeted `off`, and an `emit`. -/
theorem registry_keys_monotone_witness :
    (mapGet (runProg inertEnv [("a", [1, 2])]
      [Op.opOff "a" (some 1), Op.opEmit "a" 7, Op.opOff "a" none]) "a").isSome = true :=
  registry_keys_monotone inertEnv
    [Op.opOff "a" (some 1), Op.opEmit "a" 7, Op.opOff "a" none]
    [("a", [1, 2])] "a" (by decide)

/-- **C10.** Frame property of `emit`: when none of the invoked handlers
mutates the emitter, `emit` returns the registry exactly as it was — its key
set and every handler sequence — because dispatch iterates over `.slice()`
copies and never writes to the map. -/
theorem emit_registry_frame (env : HandlerEnv) (m : HMap) (t : String) (v : Nat)
    (hpure : ∀ h, (env h).actions = []) :
    (emit env m t v).1 = m := by
  simp only [emit]
  have h1 : (dispatchList env (fun h => CallRec.concrete h v)
      ((mapGet m t).getD []) m).1 = m :=
    dispatchList_state_pure env _ _ m hpure
  by_cases hb : (dispatchList env (fun h => CallRec.concrete h v)
      ((mapGet m t).getD []) m).2.2 = true
  · simpa [hb] using h1
  · simp only [hb, if_false]
    simp [dispatchList_state_pure env _ _ _ hpure, h1]

/-- Witness for C10: a concrete `emit` over a two-key registry with inert
handlers returns the registry unchanged. -/
theorem emit_registry_frame_witness :
    (emit inertEnv [("a", [1, 2]), ("*", [3])] "a" 5).1 = [("a", [1, 2]), ("*", [3])] :=
  emit_registry_frame inertEnv [("a", [1, 2]), ("*", [3])] "a" 5 (fun _ => rfl)

/-- **C7.** `off(type)` with no handler: when `type` has a sequence it is
replaced by a fresh empty one while every key of the registry (including
`type` itself) stays present; when `type` has no sequence the registry is
returned untouched. -/
theorem off_clear_semantics (m : HMap) (t : String) :
    (∀ l, mapGet m t = some l →
      mapGet (off m t none) t = some [] ∧
      ∀ k, (mapGet (off m t none) k).isSome = (mapGet m k).isSome) ∧
    (mapGet m t = none → off m t none = m) := by
  constructor
  · intro l hl
    have hoff : off m t none = mapSet m t [] := by
      simp [off, hl]
    constructor
    · rw [hoff, mapGet_mapSet_self]
    · intro k
      by_cases hk : t = k
      · subst hk
        rw [hoff, mapGet_mapSet_self, hl]
        rfl
      · rw [hoff, mapGet_mapSet_ne m t k _ hk]
  · intro hl
    simp [off, hl]

/-- Witness for C7: clearing an existing key empties its sequence and keeps
both keys; clearing an absent key is the identity. -/
theorem off_clear_semantics_witness :
    mapGet (off [("a", [1, 2]), ("b", [3])] "a" none) "a" = some [] ∧
    (mapGet (off [("a", [1, 2]), ("b", [3])] "a" none) "b").isSome =
      (mapGet [("a", [1, 2]), ("b", [3])] "b").isSome ∧
    off ([("b", [3])] : HMap) "a" none = [("b", [3])] :=
  ⟨((off_clear_semantics [("a", [1, 2]), ("b", [3])] "a").1 [1, 2] (by decide)).1,
   ((off_clear_semantics [("a", [1, 2]), ("b", [3])] "a").1 [1, 2] (by decide)).2 "b",
   (off_clear_semantics [("b", [3])] "a").2 (by decide)⟩

/-- **C8.** Emitting the wildcard key as a concrete type raises no error:
`emit('*', v)` simply looks up the `'*'` sequence in the type-matched first
step (invoking its handlers with the payload), and the fixed wildcard second
step then dispatches the same sequence with `('*', v)`; no other key is
consulted and the registry is untouched (handlers here neither throw nor
mutate). -/
theorem emit_star_as_type (env : HandlerEnv) (m : HMap) (v : Nat)
    (hth : ∀ h, (env h).throws = false) (hpure : ∀ h, (env h).actions = []) :
    emit env m "*" v =
      (m, (listOf m "*").map (fun h => .concrete h v) ++
        (listOf m "*").map (fun h => .wildcard h "*" v), false) :=
  emit_trace_pure env m "*" v hth hpure

/-- Witness for C8: emitting `"*"` over a registry with both a concrete key
and a wildcard sequence dispatches only the `'*'` sequence — twice, once per
step — and raises no error. -/
theorem emit_star_as_type_witness :
    emit inertEnv [("a", [1]), ("*", [7, 8])] "*" 3 =
      ([("a", [1]), ("*", [7, 8])],
       [CallRec.concrete 7 3, CallRec.concrete 8 3,
        CallRec.wildcard 7 "*" 3, CallRec.wildcard 8 "*" 3], false) := by
  have h := emit_star_as_type inertEnv [("a", [1]), ("*", [7, 8])] 3
    (fun _ => rfl) (fun _ => rfl)
  rw [h]
  decide

/-- **C2.** Wildcard-after ordering: under handlers that neither throw nor
mutate, every handler registered under `t` is invoked with `v`, every
handler registered under `'*'` is invoked with `(t, v)`, and each
type-matched invocation occurs strictly before every wildcard invocation,
whatever the registration order between the two groups. -/
theorem emit_wildcard_after (env : HandlerEnv) (m : HMap) (t : String) (v : Nat)
    (hth : ∀ h, (env h).throws = false) (hpure : ∀ h, (env h).actions = []) :
    (∀ h1 ∈ listOf m t, CallRec.concrete h1 v ∈ (emit env m t v).2.1) ∧
    (∀ hw ∈ listOf m "*", CallRec.wildcard hw t v ∈ (emit env m t v).2.1) ∧
    (∀ h1 ∈ listOf m t, ∀ hw ∈ listOf m "*",
      ∃ A B, (emit env m t v).2.1 = A ++ CallRec.concrete h1 v :: B ∧
        CallRec.wildcard hw t v ∈ B) := by
  have hchar : (emit env m t v).2.1 =
      (listOf m t).map (fun h => CallRec.concrete h v) ++
        (listOf m "*").map (fun h => CallRec.wildcard h t v) := by
    rw [emit_trace_pure env m t v hth hpure]
  refine ⟨?_, ?_, ?_⟩
  · intro h1 hh1
    rw [hchar]
    exact List.mem_append_left _ (List.mem_map_of_mem _ hh1)
  · intro hw hhw
    rw [hchar]
    exact List.mem_append_right _ (List.mem_map_of_mem _ hhw)
  · intro h1 hh1 hw hhw
    obtain ⟨u, w, huw⟩ := List.append_of_mem hh1
    refine ⟨u.map (fun h => CallRec.concrete h v),
      w.map (fun h => CallRec.concrete h v) ++
        (listOf m "*").map (fun h => CallRec.wildcard h t v), ?_, ?_⟩
    · rw [hchar, huw]
      simp
    · exact List.mem_append_right _ (List.mem_map_of_mem _ hhw)

/-- Witness for C2: with handler 1 under `"a"` registered after the wildcard
handler 9, `emit("a", 4)` still invokes 1 before 9. -/
theorem emit_wildcard_after_witness :
    ∃ A B, (emit inertEnv [("*", [9]), ("a", [1])] "a" 4).2.1 =
        A ++ CallRec.concrete 1 4 :: B ∧ CallRec.wildcard 9 "a" 4 ∈ B :=
  (emit_wildcard_after inertEnv [("*", [9]), ("a", [1])] "a" 4
    (fun _ => rfl) (fun _ => rfl)).2.2 1 (by decide) 9 (by decide)

/-- **C6.** Duplicate registrations are preserved and dispatched: two
`on(t, h)` calls append `h` twice to the sequence for `t`, and a subsequent
`emit(t, v)` (with handlers that neither throw nor mutate) invokes `h`
exactly two more times than it would have before the two registrations. -/
theorem on_preserves_duplicates (env : HandlerEnv) (m : HMap) (t : String)
    (h : HandlerId) (v : Nat)
    (hth : ∀ x, (env x).throws = false) (hpure : ∀ x, (env x).actions = []) :
    listOf («on» («on» m t h) t h) t = listOf m t ++ [h, h] ∧
    List.count (CallRec.concrete h v)
        ((emit env («on» («on» m t h) t h) t v).2.1) =
      List.count h (listOf m t) + 2 := by
  have hlist : listOf («on» («on» m t h) t h) t = listOf m t ++ [h, h] := by
    rw [listOf_on_self, listOf_on_self]
    simp
  refine ⟨hlist, ?_⟩
  have hchar : (emit env («on» («on» m t h) t h) t v).2.1 =
      (listOf («on» («on» m t h) t h) t).map (fun x => CallRec.concrete x v) ++
        (listOf («on» («on» m t h) t h) "*").map (fun x => CallRec.wildcard x t v) := by
    rw [emit_trace_pure env _ t v hth hpure]
  rw [hchar, List.count_append, count_concrete_map, count_concrete_wildcard_map,
    hlist, List.count_append]
  simp [List.count_cons]

/-- Witness for C6: registering handler 4 twice under `"a"` yields the
sequence `[4, 4]` and `emit("a", 6)` invokes it twice. -/
theorem on_preserves_duplicates_witness :
    listOf («on» («on» ([] : HMap) "a" 4) "a" 4) "a" = [4, 4] ∧
    List.count (CallRec.concrete 4 6)
        ((emit inertEnv («on» («on» ([] : HMap) "a" 4) "a" 4) "a" 6).2.1) = 2 := by
  have h := on_preserves_duplicates inertEnv [] "a" 4 6 (fun _ => rfl) (fun _ => rfl)
  exact ⟨by rw [h.1]; decide, by rw [h.2]; decide⟩

/-! ## `off` with a handler: the `indexOf >>> 0` splice -/

theorem jsIndexOf_not_mem (l : List HandlerId) (h : HandlerId) (hmem : h ∉ l) :
    jsIndexOf l h = -1 := by
  induction l with
  | nil => rfl
  | cons x rest ih =>
      have hx : x ≠ h := fun hc => hmem (hc ▸ List.mem_cons_self x rest)
      have hr : jsIndexOf rest h = -1 := ih (fun hc => hmem (List.mem_cons_of_mem x hc))
      simp [jsIndexOf, hx, hr]

theorem jsIndexOf_append (u w : List HandlerId) (h : HandlerId) (hu : h ∉ u) :
    jsIndexOf (u ++ h :: w) h = (u.length : Int) := by
  induction u with
  | nil => simp [jsIndexOf]
  | cons x u' ih =>
      have hx : x ≠ h := fun hc => hu (hc ▸ List.mem_cons_self x u')
      have hr : jsIndexOf (u' ++ h :: w) h = (u'.length : Int) :=
        ih (fun hc => hu (List.mem_cons_of_mem x hc))
      simp [jsIndexOf, hx, hr]

theorem toUint32_natCast (n : Nat) (hn : n < 2 ^ 32) : toUint32 (n : Int) = n := by
  unfold toUint32
  rw [Int.emod_eq_of_lt (by omega) (by exact_mod_cast hn)]
  simp

theorem toUint32_neg_one : toUint32 (-1) = 2 ^ 32 - 1 := by
  decide

theorem spliceRemoveOne_at (u w : List HandlerId) (h : HandlerId) :
    spliceRemoveOne (u ++ h :: w) u.length = u ++ w := by
  unfold spliceRemoveOne
  have htake : (u ++ h :: w).take u.length = u := List.take_left u (h :: w)
  have hdrop : (u ++ h :: w).drop (u.length + 1) = w := by
    have : u ++ h :: w = (u ++ [h]) ++ w := by simp
    rw [this]
    exact List.drop_left' (by simp)
  rw [htake, hdrop]

theorem spliceRemoveOne_oob (l : List HandlerId) (s : Nat) (hs : l.length ≤ s) :
    spliceRemoveOne l s = l := by
  unfold spliceRemoveOne
  rw [List.take_of_length_le hs, List.drop_eq_nil_of_le (by omega)]
  simp

/-- **C5.** Targeted removal: when `h` occurs in the sequence for `t`,
`off(t, h)` removes exactly the first occurrence (later duplicates stay);
when `h` does not occur, the registry is returned untouched (the
`indexOf = -1`, `>>> 0`, out-of-range `splice` path); other keys are never
affected.  The length bound is the JS array data model (a JS array cannot
reach `2^32` elements), under which the wraparound index is always a legal
no-op position. -/
theorem off_targeted_removal (m : HMap) (t : String) (h : HandlerId)
    (l : List HandlerId) (hget : mapGet m t = some l)
    (hlen : l.length < 2 ^ 32) :
    (∀ u w, l = u ++ h :: w → h ∉ u →
      mapGet (off m t (some h)) t = some (u ++ w)) ∧
    (h ∉ l → off m t (some h) = m) ∧
    (∀ k, k ≠ t → mapGet (off m t (some h)) k = mapGet m k) := by
  refine ⟨?_, ?_, ?_⟩
  · intro u w hl hu
    have hidx : jsIndexOf l h = (u.length : Int) := hl ▸ jsIndexOf_append u w h hu
    have hulen : u.length < 2 ^ 32 := by
      subst hl
      simp at hlen
      omega
    have hoff : off m t (some h) = mapSet m t (spliceRemoveOne l u.length) := by
      simp [off, hget, hidx, toUint32_natCast u.length hulen]
    rw [hoff, hl, spliceRemoveOne_at, mapGet_mapSet_self]
  · intro hmem
    have hidx : jsIndexOf l h = -1 := jsIndexOf_not_mem l h hmem
    have hsp : spliceRemoveOne l (toUint32 (-1)) = l := by
      rw [toUint32_neg_one]
      exact spliceRemoveOne_oob l _ (by omega)
    have hoff : off m t (some h) = mapSet m t l := by
      simp [off, hget, hidx, hsp]
    rw [hoff, mapSet_get_self m t l hget]
  · intro k hk
    exact mapGet_off_ne m t k (some h) (Ne.symm hk)

/-- Witness for C5: removing handler 1 from `[1, 2, 1]` leaves `[2, 1]`
(first occurrence only), and removing an unregistered handler is the
identity. -/
theorem off_targeted_removal_witness :
    mapGet (off [("a", [1, 2, 1])] "a" (some 1)) "a" = some [2, 1] ∧
    off [("a", [1, 2])] "a" (some 3) = [("a", [1, 2])] :=
  ⟨(off_targeted_removal [("a", [1, 2, 1])] "a" 1 [1, 2, 1] (by decide)
      (by decide)).1 [] [2, 1] (by decide) (by decide),
   (off_targeted_removal [("a", [1, 2])] "a" 3 [1, 2] (by decide)
      (by decide)).2.1 (by decide)⟩

/-- **C4.** Handler-exception propagation.  First conjunct: if the `i`-th
handler of the type-matched snapshot throws (all earlier ones returning
normally), `emit` returns with the throw flag set — the exception is not
caught — the trace containing exactly the first `i + 1` type-matched
invocations (earlier handlers ran, their registry effects stand in the
returned state, the thrower was invoked), and no later type-matched or
wildcard handler is invoked.  Second conjunct: the same when the throw
happens at position `i` of the wildcard snapshot, after all type-matched
handlers completed. -/
theorem emit_handler_throws (env : HandlerEnv) (m : HMap) (t : String) (v : Nat) :
    (∀ i, i < (listOf m t).length →
      (∀ x ∈ (listOf m t).take i, (env x).throws = false) →
      (env ((listOf m t).getD i 0)).throws = true →
      emit env m t v =
        (foldState env m ((listOf m t).take i),
         ((listOf m t).take (i + 1)).map (fun h => CallRec.concrete h v),
         true)) ∧
    ((∀ x ∈ listOf m t, (env x).throws = false) →
      ∀ i, i < (listOf (foldState env m (listOf m t)) "*").length →
      (∀ x ∈ (listOf (foldState env m (listOf m t)) "*").take i,
        (env x).throws = false) →
      (env ((listOf (foldState env m (listOf m t)) "*").getD i 0)).throws = true →
      emit env m t v =
        (foldState env (foldState env m (listOf m t))
           ((listOf (foldState env m (listOf m t)) "*").take i),
         (listOf m t).map (fun h => CallRec.concrete h v) ++
           ((listOf (foldState env m (listOf m t)) "*").take (i + 1)).map
             (fun h => CallRec.wildcard h t v),
         true)) := by
  constructor
  · intro i hi hb hth
    simp only [emit]
    rw [show dispatchList env (fun h => CallRec.concrete h v) ((mapGet m t).getD []) m
        = (foldState env m ((listOf m t).take i),
           ((listOf m t).take (i + 1)).map (fun h => CallRec.concrete h v), true)
      from dispatchList_firstThrow env _ (listOf m t) m i hi hb hth]
    rfl
  · intro hnt i hi hb hth
    simp only [emit]
    rw [show dispatchList env (fun h => CallRec.concrete h v) ((mapGet m t).getD []) m
        = (foldState env m (listOf m t),
           (listOf m t).map (fun h => CallRec.concrete h v), false)
      from dispatchList_noThrow env _ (listOf m t) m (fun x hx => hnt x hx)]
    simp only [Bool.false_eq_true, if_false]
    rw [show dispatchList env (fun h => CallRec.wildcard h t v)
          ((mapGet (foldState env m (listOf m t)) "*").getD [])
          (foldState env m (listOf m t))
        = (foldState env (foldState env m (listOf m t))
             ((listOf (foldState env m (listOf m t)) "*").take i),
           ((listOf (foldState env m (listOf m t)) "*").take (i + 1)).map
             (fun h => CallRec.wildcard h t v), true)
      from dispatchList_firstThrow env _ (listOf (foldState env m (listOf m t)) "*")
        (foldState env m (listOf m t)) i hi hb hth]

/-- Witness for C4: with handler 5 throwing, `emit("a", 3)` over
`a ↦ [1, 5, 2]`, `* ↦ [7]` invokes 1 then 5, aborts before 2 and before the
wildcard handler 7, leaves the registry as it was, and reports the throw. -/
theorem emit_handler_throws_witness :
    emit envThrow5 [("a", [1, 5, 2]), ("*", [7])] "a" 3 =
      ([("a", [1, 5, 2]), ("*", [7])],
       [CallRec.concrete 1 3, CallRec.concrete 5 3], true) := by
  have h := (emit_handler_throws envThrow5 [("a", [1, 5, 2]), ("*", [7])] "a" 3).1
    1 (by decide) (by decide) (by decide)
  rw [h]
  decide

/-! ## Registration-order machinery (C3) -/

theorem count_tail_le_one {x a : HandlerId} {l : List HandlerId}
    (h : List.count x (a :: l) ≤ 1) : List.count x l ≤ 1 :=
  Nat.le_trans (by rw [List.count_cons]; exact Nat.le_add_right _ _) h

theorem before_append_elem {h1 h2 : HandlerId} {l : List HandlerId} (x : HandlerId)
    (hB : Before h1 h2 l) : Before h1 h2 (l ++ [x]) := by
  obtain ⟨u, w, heq, hw⟩ := hB
  exact ⟨u, w ++ [x], by rw [heq]; simp, List.mem_append_left _ hw⟩

theorem before_sublist {h1 h2 : HandlerId} (hne : h1 ≠ h2) {l' l : List HandlerId}
    (hsub : List.Sublist l' l) :
    List.count h1 l ≤ 1 → List.count h2 l ≤ 1 → h1 ∈ l' → h2 ∈ l' →
    Before h1 h2 l → Before h1 h2 l' := by
  induction hsub with
  | slnil =>
      intro _ _ hm1 _ _
      cases hm1
  | @cons l₁ l₂ a hsub ih =>
      intro hc1 hc2 hm1 hm2 hB
      obtain ⟨u, w, heq, hw⟩ := hB
      cases u with
      | nil =>
          simp only [List.nil_append, List.cons.injEq] at heq
          have hmem : h1 ∈ l₂ := hsub.subset hm1
          rw [heq.1, List.count_cons] at hc1
          simp at hc1
          exact absurd hmem (List.count_eq_zero.1 hc1)
      | cons b u' =>
          simp only [List.cons_append, List.cons.injEq] at heq
          exact ih (count_tail_le_one hc1) (count_tail_le_one hc2)
            hm1 hm2 ⟨u', w, heq.2, hw⟩
  | @cons₂ l₁ l₂ a hsub ih =>
      intro hc1 hc2 hm1 hm2 hB
      by_cases ha1 : a = h1
      · have hm2' : h2 ∈ l₁ := by
          rcases List.mem_cons.1 hm2 with hc | hc
          · exact absurd (hc.trans ha1) (Ne.symm hne)
          · exact hc
        exact ⟨[], l₁, by rw [ha1]; rfl, hm2'⟩
      · obtain ⟨u, w, heq, hw⟩ := hB
        cases u with
        | nil =>
            simp only [List.nil_append, List.cons.injEq] at heq
            exact absurd heq.1 ha1
        | cons b u' =>
            simp only [List.cons_append, List.cons.injEq] at heq
            by_cases ha2 : a = h2
            · have hw2 : h2 ∈ l₂ := by
                rw [heq.2]
                exact List.mem_append_right _ (List.mem_cons_of_mem h1 hw)
              rw [ha2, List.count_cons] at hc2
              simp at hc2
              exact absurd hw2 (List.count_eq_zero.1 hc2)
            · have hm1' : h1 ∈ l₁ := by
                rcases List.mem_cons.1 hm1 with hc | hc
                · exact absurd hc.symm ha1
                · exact hc
              have hm2' : h2 ∈ l₁ := by
                rcases List.mem_cons.1 hm2 with hc | hc
                · exact absurd hc.symm ha2
                · exact hc
              obtain ⟨u'', w'', heq'', hw''⟩ :=
                ih (count_tail_le_one hc1) (count_tail_le_one hc2)
                  hm1' hm2' ⟨u', w, heq.2, hw⟩
              exact ⟨a :: u'', w'', by rw [heq'']; rfl, hw''⟩

theorem listOf_on_other (m : HMap) (t' t : String) (x : HandlerId) (ht : t' ≠ t) :
    listOf («on» m t' x) t = listOf m t := by
  unfold listOf
  rw [mapGet_on_ne m t' t x ht]

theorem listOf_off_other (m : HMap) (t' t : String) (x? : Option HandlerId) (ht : t' ≠ t) :
    listOf (off m t' x?) t = listOf m t := by
  unfold listOf
  rw [mapGet_off_ne m t' t x? ht]

theorem runAction_goodStep (m : HMap) (a : Action) (t : String) (h1 h2 : HandlerId)
    (ha1 : a ≠ Action.onA t h1) (ha2 : a ≠ Action.onA t h2) :
    GoodStep t h1 h2 m (runAction m a) := by
  cases a with
  | onA t' x =>
      by_cases ht : t' = t
      · subst ht
        left
        refine ⟨x, fun hx => ha1 (by rw [hx]), fun hx => ha2 (by rw [hx]), ?_⟩
        exact listOf_on_self m t' x
      · right
        rw [show runAction m (Action.onA t' x) = «on» m t' x from rfl,
          listOf_on_other m t' t x ht]
  | offA t' x? =>
      by_cases ht : t' = t
      · subst ht
        exact Or.inr (listOf_off_sublist m t' x?)
      · right
        rw [show runAction m (Action.offA t' x?) = off m t' x? from rfl,
          listOf_off_other m t' t x? ht]

theorem goodStep_notIn2 {t : String} {h1 h2 : HandlerId} {m m' : HMap}
    (hg : GoodStep t h1 h2 m m') (hm : NotIn2 t h1 h2 m) : NotIn2 t h1 h2 m' := by
  obtain ⟨hm1, hm2⟩ := hm
  unfold NotIn2
  rcases hg with ⟨x, hx1, hx2, heq⟩ | hsub
  · rw [heq]
    constructor
    · simp [hm1, Ne.symm hx1]
    · simp [hm2, Ne.symm hx2]
  · exact ⟨fun hc => hm1 (hsub.subset hc), fun hc => hm2 (hsub.subset hc)⟩

theorem goodStep_reg1 {t : String} {h1 h2 : HandlerId} {m m' : HMap}
    (hg : GoodStep t h1 h2 m m') (hm : Reg1 t h1 h2 m) : Reg1 t h1 h2 m' := by
  obtain ⟨hc1, hm2⟩ := hm
  unfold Reg1
  rcases hg with ⟨x, hx1, hx2, heq⟩ | hsub
  · rw [heq]
    constructor
    · rw [List.count_append]
      have : List.count h1 [x] = 0 := by simp [Ne.symm hx1]
      omega
    · simp [hm2, Ne.symm hx2]
  · exact ⟨Nat.le_trans (hsub.count_le h1) hc1, fun hc => hm2 (hsub.subset hc)⟩

theorem goodStep_reg2 {t : String} {h1 h2 : HandlerId} (hne : h1 ≠ h2) {m m' : HMap}
    (hg : GoodStep t h1 h2 m m') (hm : Reg2 t h1 h2 m) : Reg2 t h1 h2 m' := by
  obtain ⟨hc1, hc2, hB⟩ := hm
  unfold Reg2
  rcases hg with ⟨x, hx1, hx2, heq⟩ | hsub
  · rw [heq]
    have hz1 : List.count h1 [x] = 0 := by simp [Ne.symm hx1]
    have hz2 : List.count h2 [x] = 0 := by simp [Ne.symm hx2]
    refine ⟨by rw [List.count_append]; omega, by rw [List.count_append]; omega, ?_⟩
    intro hm1 hm2
    have hm1' : h1 ∈ listOf m t := by
      rcases List.mem_append.1 hm1 with hc | hc
      · exact hc
      · simp at hc
        exact absurd hc.symm hx1
    have hm2' : h2 ∈ listOf m t := by
      rcases List.mem_append.1 hm2 with hc | hc
      · exact hc
      · simp at hc
        exact absurd hc.symm hx2
    exact before_append_elem x (hB hm1' hm2')
  · refine ⟨Nat.le_trans (hsub.count_le h1) hc1,
      Nat.le_trans (hsub.count_le h2) hc2, ?_⟩
    intro hm1 hm2
    exact before_sublist hne hsub hc1 hc2 hm1 hm2
      (hB (hsub.subset hm1) (hsub.subset hm2))

theorem opOK_of_ne {t : String} {h1 h2 : HandlerId} {op : Op}
    (hop : op ≠ Op.opOn t h1 ∧ op ≠ Op.opOn t h2) :
    OpOK (fun a => a ≠ Action.onA t h1 ∧ a ≠ Action.onA t h2) op := by
  cases op with
  | opOn t'' x =>
      simpa [OpOK, Op.opOn.injEq, Action.onA.injEq] using hop
  | opOff t'' x? => simp [OpOK]
  | opEmit t'' v => trivial

theorem runProg_append (env : HandlerEnv) (m : HMap) (xs ys : List Op) :
    runProg env m (xs ++ ys) = runProg env (runProg env m xs) ys := by
  unfold runProg
  exact List.foldl_append _ _ xs ys

theorem runProg_cons (env : HandlerEnv) (m : HMap) (op : Op) (ops : List Op) :
    runProg env m (op :: ops) = runProg env (applyOp env m op) ops := rfl

/-- **C3.** Registration-order dispatch, as amended: if `on(t, h1)` is
called before `on(t, h2)` in a call sequence in which `h1` and `h2` are not
otherwise registered under `t` (neither by other operations nor by handler
mutations; other handlers may be added or removed freely), both are still
registered at the end, and handlers do not throw, then `emit(t, v)` invokes
`h1` (with `v`) strictly before `h2` (with `v`).  Without the
no-re-registration proviso the claim is false, see the counterexample. -/
theorem dispatch_registration_order (env : HandlerEnv) (s0 : HMap)
    (A B C : List Op) (t : String) (h1 h2 : HandlerId) (v : Nat)
    (hne : h1 ≠ h2)
    (hth : ∀ h, (env h).throws = false)
    (henv : ∀ h, ∀ a ∈ (env h).actions, a ≠ Action.onA t h1 ∧ a ≠ Action.onA t h2)
    (hops : ∀ op ∈ A ++ B ++ C, op ≠ Op.opOn t h1 ∧ op ≠ Op.opOn t h2)
    (hinit1 : h1 ∉ listOf s0 t) (hinit2 : h2 ∉ listOf s0 t)
    (s : HMap)
    (hs : s = runProg env s0 (A ++ Op.opOn t h1 :: (B ++ Op.opOn t h2 :: C)))
    (hmem1 : h1 ∈ listOf s t) (hmem2 : h2 ∈ listOf s t) :
    ∃ X Y, (emit env s t v).2.1 = X ++ CallRec.concrete h1 v :: Y ∧
      CallRec.concrete h2 v ∈ Y := by
  have hopsA : ∀ op ∈ A,
      OpOK (fun a => a ≠ Action.onA t h1 ∧ a ≠ Action.onA t h2) op :=
    fun op hop => opOK_of_ne (hops op (List.mem_append_left _ (List.mem_append_left _ hop)))
  have hopsB : ∀ op ∈ B,
      OpOK (fun a => a ≠ Action.onA t h1 ∧ a ≠ Action.onA t h2) op :=
    fun op hop => opOK_of_ne (hops op (List.mem_append_left _ (List.mem_append_right _ hop)))
  have hopsC : ∀ op ∈ C,
      OpOK (fun a => a ≠ Action.onA t h1 ∧ a ≠ Action.onA t h2) op :=
    fun op hop => opOK_of_ne (hops op (List.mem_append_right _ hop))
  have hA : NotIn2 t h1 h2 (runProg env s0 A) :=
    runProg_pres (NotIn2 t h1 h2) _
      (fun m a ha hm => goodStep_notIn2 (runAction_goodStep m a t h1 h2 ha.1 ha.2) hm)
      env henv A hopsA s0 ⟨hinit1, hinit2⟩
  have h1inv : Reg1 t h1 h2 («on» (runProg env s0 A) t h1) := by
    unfold Reg1
    rw [listOf_on_self]
    constructor
    · rw [List.count_append, List.count_eq_zero.2 hA.1]
      simp
    · simp [hA.2, Ne.symm hne]
  have hBinv : Reg1 t h1 h2 (runProg env («on» (runProg env s0 A) t h1) B) :=
    runProg_pres (Reg1 t h1 h2) _
      (fun m a ha hm => goodStep_reg1 (runAction_goodStep m a t h1 h2 ha.1 ha.2) hm)
      env henv B hopsB _ h1inv
  have h2inv : Reg2 t h1 h2
      («on» (runProg env («on» (runProg env s0 A) t h1) B) t h2) := by
    unfold Reg2
    rw [listOf_on_self]
    have hz1 : List.count h1 [h2] = 0 := by simp [hne]
    have hz2 : List.count h2 (listOf (runProg env («on» (runProg env s0 A) t h1) B) t) = 0 :=
      List.count_eq_zero.2 hBinv.2
    refine ⟨?_, ?_, ?_⟩
    · rw [List.count_append]
      have := hBinv.1
      omega
    · rw [List.count_append, hz2]
      simp
    · intro hm1' _
      have hm1'' : h1 ∈ listOf (runProg env («on» (runProg env s0 A) t h1) B) t := by
        rcases List.mem_append.1 hm1' with hc | hc
        · exact hc
        · simp at hc
          exact absurd hc hne
      obtain ⟨u, w, huw⟩ := List.append_of_mem hm1''
      exact ⟨u, w ++ [h2], by rw [huw]; simp, by simp⟩
  have hchain : s = runProg env
      («on» (runProg env («on» (runProg env s0 A) t h1) B) t h2) C := by
    rw [hs, runProg_append, runProg_cons, runProg_append, runProg_cons]
    rfl
  have hfinal : Reg2 t h1 h2 s := by
    rw [hchain]
    exact runProg_pres (Reg2 t h1 h2) _
      (fun m a ha hm => goodStep_reg2 hne (runAction_goodStep m a t h1 h2 ha.1 ha.2) hm)
      env henv C hopsC _ h2inv
  obtain ⟨u, w, heq, hw⟩ := hfinal.2.2 hmem1 hmem2
  have htr : (emit env s t v).2.1 =
      (listOf s t).map (fun h => CallRec.concrete h v) ++
        (listOf (foldState env s (listOf s t)) "*").map (fun h => CallRec.wildcard h t v) := by
    rw [emit_noThrow env s t v hth]
  refine ⟨u.map (fun h => CallRec.concrete h v),
    w.map (fun h => CallRec.concrete h v) ++
      (listOf (foldState env s (listOf s t)) "*").map (fun h => CallRec.wildcard h t v),
    ?_, ?_⟩
  · rw [htr, heq]
    simp
  · exact List.mem_append_left _ (List.mem_map_of_mem _ hw)

theorem not_before_pair {c1 c2 : CallRec} (hne : c1 ≠ c2) :
    ¬ ∃ X Y, ([c2, c1] : List CallRec) = X ++ c1 :: Y ∧ c2 ∈ Y := by
  rintro ⟨X, Y, heq, hmem⟩
  rcases X with _ | ⟨x, _ | ⟨y, X'⟩⟩
  · simp only [List.nil_append, List.cons.injEq] at heq
    exact hne heq.1.symm
  · simp only [List.cons_append, List.nil_append, List.cons.injEq] at heq
    rw [← heq.2.2] at hmem
    cases hmem
  · simp only [List.cons_append, List.cons.injEq] at heq
    have := heq.2.2
    exact absurd this.symm (List.cons_ne_nil _ _ ∘ (List.append_eq_nil.1 · |>.2))

/-- Counterexample to C3 as stated: after
`on(a, 1); on(a, 2); on(a, 1); off(a, 1)` — where `on(a, 1)` was called
before `on(a, 2)` and both handlers remain registered — `emit(a, 5)`
invokes handler 2 strictly before the only invocation of handler 1, so
"h1 is invoked before h2" fails.  First-occurrence removal shifted the
surviving duplicate of handler 1 behind handler 2. -/
theorem dispatch_registration_order_cex :
    (1 : HandlerId) ∈ listOf (runProg inertEnv []
      [Op.opOn "a" 1, Op.opOn "a" 2, Op.opOn "a" 1, Op.opOff "a" (some 1)]) "a" ∧
    (2 : HandlerId) ∈ listOf (runProg inertEnv []
      [Op.opOn "a" 1, Op.opOn "a" 2, Op.opOn "a" 1, Op.opOff "a" (some 1)]) "a" ∧
    (emit inertEnv (runProg inertEnv []
      [Op.opOn "a" 1, Op.opOn "a" 2, Op.opOn "a" 1, Op.opOff "a" (some 1)]) "a" 5).2.1 =
      [CallRec.concrete 2 5, CallRec.concrete 1 5] ∧
    ¬ ∃ X Y, (emit inertEnv (runProg inertEnv []
      [Op.opOn "a" 1, Op.opOn "a" 2, Op.opOn "a" 1, Op.opOff "a" (some 1)]) "a" 5).2.1 =
        X ++ CallRec.concrete 1 5 :: Y ∧ CallRec.concrete 2 5 ∈ Y := by
  refine ⟨by decide, by decide, by decide, ?_⟩
  have htr : (emit inertEnv (runProg inertEnv []
      [Op.opOn "a" 1, Op.opOn "a" 2, Op.opOn "a" 1, Op.opOff "a" (some 1)]) "a" 5).2.1 =
      [CallRec.concrete 2 5, CallRec.concrete 1 5] := by decide
  rw [htr]
  exact not_before_pair (by decide)

/-- Witness for the amended C3: for `on(a, 0); on(a, 1); emit(a, 5)` with no
interleaved operations, handler 0 is invoked before handler 1. -/
theorem dispatch_registration_order_witness :
    ∃ X Y, (emit inertEnv (runProg inertEnv [] [Op.opOn "a" 0, Op.opOn "a" 1]) "a" 5).2.1 =
        X ++ CallRec.concrete 0 5 :: Y ∧ CallRec.concrete 1 5 ∈ Y :=
  dispatch_registration_order inertEnv [] [] [] [] "a" 0 1 5 (by decide)
    (fun _ => rfl) (fun _ a ha => absurd ha (List.not_mem_nil a))
    (fun op hop => absurd hop (List.not_mem_nil op))
    (by decide) (by decide)
    (runProg inertEnv [] [Op.opOn "a" 0, Op.opOn "a" 1]) rfl (by decide) (by decide)

/-! ## Snapshot isolation (C1) -/

theorem mapGet_runAction_other (m : HMap) (a : Action) (k : String)
    (hk : a.key ≠ k) : mapGet (runAction m a) k = mapGet m k := by
  cases a with
  | onA t' x => exact mapGet_on_ne m t' k x hk
  | offA t' x? => exact mapGet_off_ne m t' k x? hk

/-- **C1.** Snapshot isolation of dispatch, as amended with `t ≠ "*"`: if
every mutation performed by an invoked handler is an `on`/`off` call on the
emitted key `t` (and no handler throws), then the invocations of
`emit(t, v)` are exactly the sequences registered under `t` and under `'*'`
at the instant `emit` began, in order; the mutations survive only into the
returned registry, where all invoked handlers' effects are folded.  For
`t = "*"` the claim as stated fails, see the counterexample. -/
theorem emit_snapshot_isolation (env : HandlerEnv) (m : HMap) (t : String) (v : Nat)
    (hT : t ≠ "*") (hth : ∀ h, (env h).throws = false)
    (hkeys : ∀ h, ∀ a ∈ (env h).actions, a.key = t) :
    (emit env m t v).2.1 =
      (listOf m t).map (fun h => CallRec.concrete h v) ++
        (listOf m "*").map (fun h => CallRec.wildcard h t v) ∧
    (emit env m t v).2.2 = false ∧
    (emit env m t v).1 =
      foldState env (foldState env m (listOf m t)) (listOf m "*") := by
  have hstar0 : mapGet (foldState env m (listOf m t)) "*" = mapGet m "*" :=
    foldState_pres (fun m' => mapGet m' "*" = mapGet m "*") (fun a => a.key = t)
      (fun m' a hak hm' => by
        have hak' : a.key = t := hak
        have hm'' : mapGet m' "*" = mapGet m "*" := hm'
        show mapGet (runAction m' a) "*" = mapGet m "*"
        rw [mapGet_runAction_other m' a "*" (by rw [hak']; exact hT)]
        exact hm'')
      env hkeys (listOf m t) m rfl
  have hstar' : listOf (foldState env m (listOf m t)) "*" = listOf m "*" := by
    show (mapGet (foldState env m (listOf m t)) "*").getD [] = (mapGet m "*").getD []
    rw [hstar0]
  rw [emit_noThrow env m t v hth]
  refine ⟨?_, ?_, ?_⟩ <;> simp [hstar']

/-- Counterexample to C1 as stated at `t = "*"`: handler 0, registered under
`'*'`, registers handler 1 under `'*'` when invoked.  `emit("*", 9)` invokes
handler 1 in its wildcard phase even though handler 1 was not registered
when `emit` began — because the wildcard sequence is looked up only after
the type-matched phase — so the invocation trace is not determined by the
sequences at dispatch start. -/
theorem emit_snapshot_isolation_cex :
    (emit envStarGrow [("*", [0])] "*" 9).2.1 =
      [CallRec.concrete 0 9, CallRec.wildcard 0 "*" 9, CallRec.wildcard 1 "*" 9] ∧
    (listOf ([("*", [0])] : HMap) "*").map (fun h => CallRec.concrete h 9) ++
      (listOf ([("*", [0])] : HMap) "*").map (fun h => CallRec.wildcard h "*" 9) =
      [CallRec.concrete 0 9, CallRec.wildcard 0 "*" 9] ∧
    (1 : HandlerId) ∉ listOf ([("*", [0])] : HMap) "*" ∧
    CallRec.wildcard 1 "*" 9 ∈ (emit envStarGrow [("*", [0])] "*" 9).2.1 := by
  decide

/-- Witness for the amended C1: handler 0 under `"a"` registers handler 1
under `"a"` during dispatch; the current `emit("a", 7)` still invokes
exactly handler 0 and then wildcard handler 3, while the returned registry
contains the newly registered handler 1 (visible to the next `emit`). -/
theorem emit_snapshot_isolation_witness :
    (emit envMutA [("a", [0]), ("*", [3])] "a" 7).2.1 =
      [CallRec.concrete 0 7, CallRec.wildcard 3 "a" 7] ∧
    (emit envMutA [("a", [0]), ("*", [3])] "a" 7).1 = [("a", [0, 1]), ("*", [3])] := by
  have h := emit_snapshot_isolation envMutA [("a", [0]), ("*", [3])] "a" 7
    (by decide) (fun _ => rfl)
    (by
      intro h a ha
      by_cases h0 : h = 0
      · subst h0
        simp [envMutA] at ha
        rw [ha]
        rfl
      · simp [envMutA, h0] at ha)
  refine ⟨?_, ?_⟩
  · rw [h.1]
    decide
  · rw [h.2.2]
    decide

end Mitt
